import Mathlib

/-!
# Histogram kernel building blocks

A shallow embedding of `dpnp/backend/extensions/statistics/histogram_common.hpp`:
the data-source strategies (`CachedData`, `UncachedData`), the accumulator
strategies (`HistGlobalMemory`, `HistWithLocalCopies`), the weight strategies,
`check_in_bounds` and the kernel body of `submit_histogram`.

Conventions of the embedding.

* Device and local memory are total maps from a cell index to a value.
* Histogram cells hold machine integers; a cell of integer type `T` holds an
  `Int` and every arithmetic result is reduced with `T.wrap`.  Floating point
  element types are outside the embedding.
* `size_t` quantities that count or index what is held in memory are natural
  numbers; the sample index of the kernel, which is formed before it is compared
  with `size`, is reduced modulo `2 ^ 64`.  Every narrowing that the source
  spells out (`uint32_t x = ...`, `int32_t x = ...`, an `int32_t` parameter) is
  embedded with `toU32` / `toI32`, and a signed value used as an index goes
  through `toSizeT`.
* A loop whose counter can wrap around carries a fuel argument and returns
  `none` when the fuel runs out.
* The work-items of one work-group run one after another inside each phase
  delimited by a barrier (initialise, accumulate, finalise), work-groups run
  one after another.  Strategies without a barrier have empty `init` and
  `finalize`, so the phase order is one of their schedules.
-/

namespace Histogram

/-! ## Machine integers -/

/-- Value of a natural number after conversion to `uint32_t`. -/
def toU32 (x : Nat) : Nat := x % 2 ^ 32

/-- Value of an integer after conversion to `int32_t`. -/
def toI32 (x : Int) : Int := (x + 2 ^ 31) % 2 ^ 32 - 2 ^ 31

/-- Value of a signed integer after conversion to `size_t`, as happens when it
is used as an index. -/
def toSizeT (x : Int) : Nat := (x % 2 ^ 64).toNat

/-- The fixed-width integer element types. -/
inductive IntType where
  | int8_t | uint8_t | int16_t | uint16_t | int32_t | uint32_t | int64_t | uint64_t
deriving DecidableEq

open IntType

/-- Width of an integer type in bits. -/
def IntType.bits : IntType → Nat
  | int8_t => 8 | uint8_t => 8
  | int16_t => 16 | uint16_t => 16
  | int32_t => 32 | uint32_t => 32
  | int64_t => 64 | uint64_t => 64

/-- Whether an integer type is signed. -/
def IntType.signed : IntType → Bool
  | int8_t => true | int16_t => true | int32_t => true | int64_t => true
  | uint8_t => false | uint16_t => false | uint32_t => false | uint64_t => false

/-- Conversion of an integer to the element type `T`: reduction modulo
`2 ^ bits`, into `[0, 2 ^ bits)` for an unsigned type and into
`[-2 ^ (bits - 1), 2 ^ (bits - 1))` for a signed one. -/
def IntType.wrap (T : IntType) (x : Int) : Int :=
  if T.signed then (x + 2 ^ (T.bits - 1)) % 2 ^ T.bits - 2 ^ (T.bits - 1)
  else x % 2 ^ T.bits

/-- A value is representable in `T`. -/
def IntType.Holds (T : IntType) (x : Int) : Prop := T.wrap x = x

instance (T : IntType) (x : Int) : Decidable (T.Holds x) := by
  unfold IntType.Holds; infer_instance

/-! ## Memory and execution context -/

/-- Memory after writing `v` to cell `i`. -/
def store {α : Type} (m : Nat → α) (i : Nat) (v : α) : Nat → α :=
  fun j => if j = i then v else m j

/-- The part of `sycl::nd_item` the kernel reads: the linear id of the
work-group, the linear id of the work-item inside it and the size of the
work-group. -/
structure NdItem where
  group_linear_id : Nat
  local_linear_id : Nat
  local_range : Nat
deriving DecidableEq

/-- The striped loop `for (uint32_t i = llid; i < size; i += local_size) body(i)`,
entered with the counter at `i`.  The counter is a `uint32_t`, so the increment
wraps around. -/
def stripedFor {σ : Type} (body : Nat → σ → σ) (size local_size : Nat) :
    Nat → Nat → σ → Option σ
  | 0, _, _ => none
  | fuel + 1, i, s =>
    if i < size then
      stripedFor body size local_size fuel (toU32 (i + local_size)) (body i s)
    else some s

/-- One phase of a work-group: every work-item `0 .. group_size - 1` of group
`group_id` runs `step`, one after another. -/
def workGroupPhase {σ : Type} (step : NdItem → σ → Option σ) (group_id group_size : Nat)
    (s : σ) : Option σ :=
  (List.range group_size).foldlM (fun s lid => step ⟨group_id, lid, group_size⟩ s) s

/-! ## Data source strategies -/

/-- State of `CachedData<T, 1>`: the local accessor (its contents and its
size) and the pointer to the device array. -/
structure CachedData (α : Type) where
  local_data : Nat → α
  shape : Nat
  global_data : Nat → α

/-- The constructor `CachedData(global_data, shape, cgh)`; `uninit` is whatever the
freshly allocated local memory holds. -/
def CachedData.new {α : Type} (global_data : Nat → α) (shape : Nat) (uninit : Nat → α) :
    CachedData α :=
  { local_data := uninit, shape := shape, global_data := global_data }

/-- The member `CachedData::init(item)`. -/
def CachedData.init {α : Type} (c : CachedData α) (fuel : Nat) (item : NdItem) :
    Option (CachedData α) :=
  let llid := toU32 item.local_linear_id
  let size := toU32 c.shape
  let local_size := toU32 item.local_range
  (stripedFor (fun i local_ptr => store local_ptr i (c.global_data i)) size local_size
    fuel llid c.local_data).map fun l => { c with local_data := l }

/-- The member `CachedData::size()`. -/
def CachedData.size {α : Type} (c : CachedData α) : Nat := c.shape

/-- State of `UncachedData<T, 1>`: the pointer to the device array and the
shape. -/
structure UncachedData (α : Type) where
  global_data : Nat → α
  shape : Nat

/-- The member `UncachedData::init(item)`: nothing to do. -/
def UncachedData.init {α : Type} (u : UncachedData α) (_item : NdItem) : UncachedData α := u

/-- The member `UncachedData::size()`. -/
def UncachedData.size {α : Type} (u : UncachedData α) : Nat := u.shape

/-- The trait `HistLocalType<T>::type`: 64-bit integer cells are replicated as
32-bit cells of the same signedness, every other type is kept. -/
def HistLocalType (T : IntType) : IntType :=
  if T = uint64_t then uint32_t
  else if T = int64_t then int32_t
  else T

/-- Record of one device-scope atomic add: the work-item that issued it, the
cell and the amount. -/
structure AtomicAdd where
  item : NdItem
  cell : Nat
  amount : Int
deriving DecidableEq

/-- The histogram in device memory, with the log of the atomic adds
performed on it (the log is an observer, no operation reads it). -/
structure GlobalHist where
  cells : Nat → Int
  trace : List AtomicAdd

/-- Modelled from the spec: `AtomicOp<T, order, scope>::add(cell, value)` of
`ext/common.hpp`, which is not part of the source tree; the spec describes it as
a relaxed atomic add.  `value` is converted to `T` and the cell becomes the sum,
reduced to `T`. -/
def atomic_add_cell (T : IntType) (m : Nat → Int) (i : Nat) (value : Int) : Nat → Int :=
  store m i (T.wrap (m i + T.wrap value))

/-- The call `AtomicOp<T, relaxed, device>::add(global_hist[i], value)` issued by
work-item `item`: the atomic add on the cell, entered in the log with the
amount as converted to `T`. -/
def GlobalHist.atomic_add (T : IntType) (item : NdItem) (g : GlobalHist) (i : Nat)
    (value : Int) : GlobalHist :=
  { cells := atomic_add_cell T g.cells i value
    trace := g.trace ++ [⟨item, i, T.wrap value⟩] }

/-- What `submit_histogram` needs of an accumulator strategy, over the memory
`σ` the strategy works on.  `init` and `finalize` take the loop fuel first;
`add` takes the `int32_t` bin and the weight. -/
structure HistImpl (σ : Type) where
  sync_after_init : Bool
  sync_before_finalize : Bool
  init : Nat → NdItem → σ → Option σ
  add : NdItem → Int → Int → σ → σ
  finalize : Nat → NdItem → σ → Option σ

/-- The member `HistGlobalMemory::add(item, bin, value)`. -/
def HistGlobalMemory.add (T : IntType) (item : NdItem) (bin : Int) (value : Int)
    (g : GlobalHist) : GlobalHist :=
  g.atomic_add T item (toSizeT bin) value

/-- The strategy `HistGlobalMemory<T>`: `init` and `finalize` are empty. -/
def HistGlobalMemory (T : IntType) : HistImpl GlobalHist :=
  { sync_after_init := false
    sync_before_finalize := false
    init := fun _ _ g => some g
    add := HistGlobalMemory.add T
    finalize := fun _ _ g => some g }

/-- The accessor `sycl::local_accessor<localT, 2>` of shape
`(range0, range1)`, stored row-major. -/
structure LocalHist where
  range0 : Nat
  range1 : Nat
  data : Nat → Int

/-- The element `local_hist[r][b]`. -/
def LocalHist.cell (h : LocalHist) (r b : Nat) : Int := h.data (r * h.range1 + b)

/-- The number of elements `local_hist.size()`. -/
def LocalHist.size (h : LocalHist) : Nat := h.range0 * h.range1

/-- Memory of `HistWithLocalCopies`: the replicas in local memory and the
histogram in device memory. -/
structure LocalCopies where
  local_hist : LocalHist
  global_hist : GlobalHist

/-- The constructor `HistWithLocalCopies(global_data, bins_count, copies_count,
cgh)`; `uninit` is whatever the freshly allocated local memory holds. -/
def HistWithLocalCopies.new (global_data : GlobalHist) (bins_count copies_count : Nat)
    (uninit : Nat → Int) : LocalCopies :=
  { local_hist := ⟨copies_count, bins_count, uninit⟩, global_hist := global_data }

/-- The member `HistWithLocalCopies::init(item, val)`. -/
def HistWithLocalCopies.init (val : Int) (fuel : Nat) (item : NdItem) (s : LocalCopies) :
    Option LocalCopies :=
  let llid := toU32 item.local_linear_id
  let size := toU32 s.local_hist.size
  let local_size := toU32 item.local_range
  (stripedFor (fun i local_ptr => store local_ptr i val) size local_size fuel llid
    s.local_hist.data).map fun d => { s with local_hist := { s.local_hist with data := d } }

/-- The replica chosen by `add`: `local_hist_count == 1 ? 0 : llid % local_hist_count`
on `int32_t` operands. -/
def HistWithLocalCopies.local_copy_id (item : NdItem) (range0 : Nat) : Int :=
  let llid := toI32 item.local_linear_id
  let local_hist_count := toI32 range0
  if local_hist_count = 1 then 0 else llid.tmod local_hist_count

/-- The member `HistWithLocalCopies::add(item, bin, value)`. -/
def HistWithLocalCopies.add (localT : IntType) (item : NdItem) (bin : Int) (value : Int)
    (s : LocalCopies) : LocalCopies :=
  let local_copy_id := HistWithLocalCopies.local_copy_id item s.local_hist.range0
  let cell := toSizeT local_copy_id * s.local_hist.range1 + toSizeT bin
  { s with local_hist :=
      { s.local_hist with data := atomic_add_cell localT s.local_hist.data cell value } }

/-- The inner loop of `finalize`: `value = local_hist[0][i]`, then
`value += local_hist[lhc][i]` for `lhc = 1 .. local_hist_count - 1`, in `localT`. -/
def HistWithLocalCopies.replicaSum (localT : IntType) (h : LocalHist) (local_hist_count i : Nat) :
    Int :=
  (List.range' 1 (local_hist_count - 1)).foldl
    (fun value lhc => localT.wrap (value + h.cell lhc i)) (h.cell 0 i)

/-- The member `HistWithLocalCopies::finalize(item)`.  The test `value != T(0)`
compares after converting `value` to the common type of `localT` and `T`, which
is at least as wide as `localT`, so it is the test `value ≠ 0`. -/
def HistWithLocalCopies.finalize (T localT : IntType) (fuel : Nat) (item : NdItem)
    (s : LocalCopies) : Option LocalCopies :=
  let llid := toU32 item.local_linear_id
  let bins_count := toU32 s.local_hist.range1
  let local_hist_count := toU32 s.local_hist.range0
  let local_size := toU32 item.local_range
  (stripedFor
    (fun i g =>
      let value := HistWithLocalCopies.replicaSum localT s.local_hist local_hist_count i
      if value ≠ 0 then g.atomic_add T item i value else g)
    bins_count local_size fuel llid s.global_hist).map fun g => { s with global_hist := g }

/-- The strategy `HistWithLocalCopies<T, localT>`. -/
def HistWithLocalCopies (T localT : IntType) : HistImpl LocalCopies :=
  { sync_after_init := true
    sync_before_finalize := true
    init := HistWithLocalCopies.init 0
    add := HistWithLocalCopies.add localT
    finalize := HistWithLocalCopies.finalize T localT }

/-- Every work-item of a work-group runs `HistWithLocalCopies::finalize`. -/
def HistWithLocalCopies.finalizeGroup (T localT : IntType) (fuel group_id group_size : Nat)
    (s : LocalCopies) : Option LocalCopies :=
  workGroupPhase (HistWithLocalCopies.finalize T localT fuel) group_id group_size s

/-! ## Weight strategies -/

/-- The function `check_in_bounds(val, min, max)`.  The comparator `Less<dT>` and
the predicate `IsNan<dT>::isnan` come from `ext/common.hpp` and are taken as
parameters. -/
def check_in_bounds {α : Type} (less : α → α → Bool) (isnan : α → Bool) (val min max : α) :
    Bool :=
  !less val min && !less max val && !isnan val

/-! ## Kernel -/

/-- Modelled from the spec: the body of `get_local_hist_copies_count`, of which the
source tree holds the declaration only.  The spec fixes three bounds on the
replica count (times the histogram size within the budget, at least one, at most
the work-group size) and leaves the curve between them open; the model takes the
largest count the budget and the work-group size allow, and never less than one. -/
def get_local_hist_copies_count (loc_mem_size_in_items local_size hist_size_in_items : Nat) :
    Nat :=
  max 1 (min local_size (loc_mem_size_in_items / hist_size_in_items))

/-! ## Reference quantities of the claims -/

/-- The indices the striped loop visits when entered at `i`, at most `k` of
them. -/
def stripe (size local_size : Nat) : Nat → Nat → List Nat
  | 0, _ => []
  | k + 1, i => if i < size then i :: stripe size local_size k (i + local_size) else []

/-! ## The calls a work-group issues -/

/-- A call `hist.add(item, bin, value)`: the calling work-item, the bin as the
`int32_t` it is passed as, and the weight. -/
structure AddCall where
  item : NdItem
  bin : Int
  value : Int
deriving DecidableEq

/-- The accumulator after a sequence of calls to `add`. -/
def applyCalls {σ : Type} (hist : HistImpl σ) (calls : List AddCall) (s : σ) : σ :=
  calls.foldl (fun s c => hist.add c.item c.bin c.value s) s

/-- One work-group takes an accumulator strategy through its life cycle: every
work-item runs `init`, the given calls to `add` are made, every work-item runs
`finalize`. -/
def runCalls {σ : Type} (hist : HistImpl σ) (fuel group_id group_size : Nat)
    (calls : List AddCall) (s : σ) : Option σ := do
  let s ← workGroupPhase (hist.init fuel) group_id group_size s
  workGroupPhase (hist.finalize fuel) group_id group_size (applyCalls hist calls s)

/-- Sum of the values of the calls whose bin is `b`. -/
def callsTotal (calls : List AddCall) (b : Nat) : Int :=
  (calls.map fun c => if toSizeT c.bin = b then c.value else 0).sum

/-- The accumulator strategies of the source, each with what its constructor takes
besides the histogram: `HistGlobalMemory<T>`, and `HistWithLocalCopies<T, localT>`
with its number of replicas and the initial contents of its local memory. -/
inductive Strategy where
  | globalMemory (T : IntType)
  | localCopies (T localT : IntType) (copies_count : Nat) (uninit : Nat → Int)

/-- The element type of the histogram. -/
def Strategy.T : Strategy → IntType
  | .globalMemory T => T
  | .localCopies T _ _ _ => T

/-- The cells that `HistWithLocalCopies::init(item, val)` stores to, in the order of
its loop: the loop of `init` with the store replaced by a record of the index. -/
def HistWithLocalCopies.initWrites (fuel : Nat) (item : NdItem) (s : LocalCopies) :
    Option (List Nat) :=
  let llid := toU32 item.local_linear_id
  let size := toU32 s.local_hist.size
  let local_size := toU32 item.local_range
  stripedFor (fun i log => log ++ [i]) size local_size fuel llid []

/-! # Theorems -/

/-! ## Basic facts -/

theorem store_same {α : Type} (m : Nat → α) (i : Nat) (v : α) : store m i v i = v := by
  simp [store]

theorem store_other {α : Type} (m : Nat → α) {i j : Nat} (v : α) (h : j ≠ i) :
    store m i v j = m j := by
  simp [store, h]

theorem toU32_of_lt {x : Nat} (h : x < 2 ^ 32) : toU32 x = x :=
  Nat.mod_eq_of_lt h

theorem toI32_of_lt {x : Int} (h0 : 0 ≤ x) (h : x < 2 ^ 31) : toI32 x = x := by
  unfold toI32
  rw [Int.emod_eq_of_lt (by omega) (by omega)]
  omega

theorem toSizeT_natCast {n : Nat} (h : n < 2 ^ 64) : toSizeT (n : Int) = n := by
  unfold toSizeT
  rw [Int.emod_eq_of_lt (by omega) (by exact_mod_cast h)]
  simp

theorem wrap_wrap (T : IntType) (x : Int) : T.wrap (T.wrap x) = T.wrap x := by
  unfold IntType.wrap
  split
  · rw [sub_add_cancel, Int.emod_emod_of_dvd _ (dvd_refl _)]
  · rw [Int.emod_emod_of_dvd _ (dvd_refl _)]

theorem wrap_add_wrap (T : IntType) (x y : Int) : T.wrap (x + T.wrap y) = T.wrap (x + y) := by
  unfold IntType.wrap
  split
  · have : x + ((y + 2 ^ (T.bits - 1)) % 2 ^ T.bits - 2 ^ (T.bits - 1)) + 2 ^ (T.bits - 1)
        = x + (y + 2 ^ (T.bits - 1)) % 2 ^ T.bits := by ring
    rw [this, Int.add_emod_emod, add_assoc]
  · rw [Int.add_emod_emod]

theorem wrap_wrap_add (T : IntType) (x y : Int) : T.wrap (T.wrap x + y) = T.wrap (x + y) := by
  rw [add_comm, wrap_add_wrap, add_comm]

theorem wrap_zero (T : IntType) : T.wrap 0 = 0 := by
  cases T <;> decide

theorem holds_wrap (T : IntType) (x : Int) : T.Holds (T.wrap x) := wrap_wrap T x

/-! ## The striped loop -/

theorem stripedFor_eq_foldl {σ : Type} (body : Nat → σ → σ) (size ls : Nat) (hls : 0 < ls)
    (hsz : size + ls < 2 ^ 32) :
    ∀ (fuel i : Nat) (s : σ), i < size + ls → size + ls < i + fuel →
      stripedFor body size ls fuel i s
        = some ((stripe size ls fuel i).foldl (fun s j => body j s) s) := by
  intro fuel
  induction fuel with
  | zero => intro i s h1 h2; omega
  | succ fuel ih =>
    intro i s h1 h2
    unfold stripedFor stripe
    by_cases hi : i < size
    · rw [if_pos hi, if_pos hi, toU32_of_lt (by omega), ih (i + ls) (body i s) (by omega) (by omega)]
      rfl
    · rw [if_neg hi, if_neg hi]
      rfl

theorem mem_stripe (size ls : Nat) :
    ∀ (k i j : Nat), j ∈ stripe size ls k i ↔ j < size ∧ ∃ t, t < k ∧ j = i + t * ls := by
  intro k
  induction k with
  | zero => intro i j; simp [stripe]
  | succ k ih =>
    intro i j
    unfold stripe
    by_cases hi : i < size
    · rw [if_pos hi, List.mem_cons, ih]
      constructor
      · rintro (h | ⟨h1, t, ht, h2⟩)
        · exact ⟨h ▸ hi, 0, by omega, by simp [h]⟩
        · exact ⟨h1, t + 1, by omega, by rw [h2, Nat.add_mul]; omega⟩
      · rintro ⟨h1, t, ht, h2⟩
        cases t with
        | zero => left; simpa using h2
        | succ t => right; exact ⟨h1, t, by omega, by rw [h2, Nat.add_mul]; omega⟩
    · rw [if_neg hi]
      simp only [List.not_mem_nil, false_iff, not_and, not_exists]
      intro h1 t _ h2
      have : i ≤ i + t * ls := Nat.le_add_right _ _
      omega

theorem stripe_nodup (size ls : Nat) (hls : 0 < ls) :
    ∀ (k i : Nat), (stripe size ls k i).Nodup := by
  intro k
  induction k with
  | zero => intro i; simp [stripe]
  | succ k ih =>
    intro i
    unfold stripe
    split
    · rw [List.nodup_cons]
      refine ⟨?_, ih _⟩
      rw [mem_stripe]
      rintro ⟨_, t, _, h⟩
      have : 0 ≤ t * ls := Nat.zero_le _
      omega
    · exact List.nodup_nil

theorem mem_stripe_of_lid {size ls fuel lid : Nat} (hlid : lid < ls) (hfuel : size < fuel)
    (j : Nat) : j ∈ stripe size ls fuel lid ↔ j < size ∧ j % ls = lid := by
  rw [mem_stripe]
  constructor
  · rintro ⟨h1, t, _, h2⟩
    refine ⟨h1, ?_⟩
    rw [h2, Nat.add_mul_mod_self_right, Nat.mod_eq_of_lt hlid]
  · rintro ⟨h1, h2⟩
    refine ⟨h1, j / ls, ?_, ?_⟩
    · exact lt_of_le_of_lt (Nat.div_le_self _ _) (by omega)
    · rw [← h2]; exact (Nat.mod_add_div' j ls).symm

theorem foldl_store_apply {α : Type} (upd : Nat → α → α) :
    ∀ (l : List Nat), l.Nodup → ∀ (m : Nat → α) (j : Nat),
      (l.foldl (fun m i => store m i (upd i (m i))) m) j
        = if j ∈ l then upd j (m j) else m j := by
  intro l
  induction l with
  | nil => intro _ m j; simp
  | cons a l ih =>
    intro hnd m j
    rw [List.nodup_cons] at hnd
    rw [List.foldl_cons, ih hnd.2]
    by_cases hja : j = a
    · subst hja
      simp [hnd.1, store_same]
    · simp [hja, store_other]

theorem workGroupPhase_induct {σ : Type} (step : NdItem → σ → Option σ) (gid gs : Nat)
    (P : Nat → σ → Prop) (s : σ) (h0 : P 0 s)
    (hstep : ∀ lid s, lid < gs → P lid s →
      ∃ s', step ⟨gid, lid, gs⟩ s = some s' ∧ P (lid + 1) s') :
    ∃ s', workGroupPhase step gid gs s = some s' ∧ P gs s' := by
  unfold workGroupPhase
  suffices h : ∀ k, k ≤ gs → ∃ s',
      (List.range k).foldlM (fun s lid => step ⟨gid, lid, gs⟩ s) s = some s' ∧ P k s' from
    h gs le_rfl
  intro k
  induction k with
  | zero => intro _; exact ⟨s, rfl, h0⟩
  | succ k ih =>
    intro hk
    obtain ⟨s1, h1, hP⟩ := ih (by omega)
    obtain ⟨s2, h2, hP2⟩ := hstep k s1 (by omega) hP
    refine ⟨s2, ?_, hP2⟩
    rw [List.range_succ, List.foldlM_append, h1]
    simp [h2]

/-! ## Bounds check -/

/-- C4: `check_in_bounds(val, min, max)` is true exactly when `val` is not less than
`min`, `max` is not less than `val`, and `val` is not NaN. -/
theorem check_in_bounds_iff {α : Type} (less : α → α → Bool) (isnan : α → Bool)
    (val min max : α) :
    check_in_bounds less isnan val min max = true
      ↔ less val min = false ∧ less max val = false ∧ isnan val = false := by
  unfold check_in_bounds
  cases less val min <;> cases less max val <;> cases isnan val <;> simp

/-- C6, as stated, fails: with the integer bounds `min = 1` and `max = 0`, neither of
them NaN, the sample equal to `min` is rejected. -/
theorem check_in_bounds_min_above_max :
    (fun _ : Int => false) 1 = false ∧ (fun _ : Int => false) 0 = false ∧
      check_in_bounds (fun a b : Int => decide (a < b)) (fun _ => false) 1 1 0 = false := by
  decide

/-- C6, amended: for a strict (irreflexive) comparator and non-NaN bounds with `max` not
less than `min`, a sample equal to `min` or to `max` is in bounds. -/
theorem check_in_bounds_at_bounds {α : Type} (less : α → α → Bool) (isnan : α → Bool)
    (hirr : ∀ a, less a a = false) (min max : α) (hmin : isnan min = false)
    (hmax : isnan max = false) (hord : less max min = false) :
    check_in_bounds less isnan min min max = true ∧
      check_in_bounds less isnan max min max = true := by
  simp [check_in_bounds, hirr, hmin, hmax, hord]

/-- Witness of `check_in_bounds_at_bounds`: integer bounds `0` and `1`. -/
theorem check_in_bounds_at_bounds_witness :
    check_in_bounds (fun a b : Int => decide (a < b)) (fun _ => false) 0 0 1 = true ∧
      check_in_bounds (fun a b : Int => decide (a < b)) (fun _ => false) 1 0 1 = true :=
  check_in_bounds_at_bounds (fun a b : Int => decide (a < b)) (fun _ => false)
    (by intro a; simp) 0 1 rfl rfl (by decide)

/-! ## Sizing heuristic -/

/-- C9, as stated, fails: with a budget of `0` items, a work-group of `1` and a
histogram of `1` item the three bounds cannot hold together. -/
theorem get_local_hist_copies_count_over_budget :
    ¬ (1 ≤ get_local_hist_copies_count 0 1 1 ∧
        get_local_hist_copies_count 0 1 1 * 1 ≤ 0 ∧
        get_local_hist_copies_count 0 1 1 ≤ 1) := by
  decide

/-- C9, amended: when the work-group has at least one work-item and one histogram fits
in the budget, the replica count is at least one, its product with the histogram
size is within the budget, and it is at most the work-group size. -/
theorem get_local_hist_copies_count_bounds (loc_mem_size_in_items local_size
    hist_size_in_items : Nat) (hls : 1 ≤ local_size)
    (hfit : hist_size_in_items ≤ loc_mem_size_in_items) :
    1 ≤ get_local_hist_copies_count loc_mem_size_in_items local_size hist_size_in_items ∧
      get_local_hist_copies_count loc_mem_size_in_items local_size hist_size_in_items
        * hist_size_in_items ≤ loc_mem_size_in_items ∧
      get_local_hist_copies_count loc_mem_size_in_items local_size hist_size_in_items
        ≤ local_size := by
  unfold get_local_hist_copies_count
  refine ⟨le_max_left _ _, ?_, max_le hls (min_le_left _ _)⟩
  rcases le_total 1 (min local_size (loc_mem_size_in_items / hist_size_in_items)) with h | h
  · rw [max_eq_right h]
    exact le_trans (Nat.mul_le_mul_right _ (min_le_right _ _)) (Nat.div_mul_le_self _ _)
  · rw [max_eq_left h]
    simpa using hfit

/-- Witness of `get_local_hist_copies_count_bounds`: a budget of `64` items, a
work-group of `8` and a histogram of `10` items. -/
theorem get_local_hist_copies_count_bounds_witness :
    1 ≤ get_local_hist_copies_count 64 8 10 ∧
      get_local_hist_copies_count 64 8 10 * 10 ≤ 64 ∧
      get_local_hist_copies_count 64 8 10 ≤ 8 :=
  get_local_hist_copies_count_bounds 64 8 10 (by decide) (by decide)

/-! ## Cached data -/

theorem foldl_proj {σ τ ι : Type} (π : σ → τ) (f : σ → ι → σ) (g : τ → ι → τ)
    (h : ∀ s x, π (f s x) = g (π s) x) :
    ∀ (l : List ι) (s : σ), π (l.foldl f s) = l.foldl g (π s) := by
  intro l
  induction l with
  | nil => intro s; rfl
  | cons a l ih => intro s; rw [List.foldl_cons, List.foldl_cons, ih, h]

theorem replicaSum_eq (localT : IntType) (h : LocalHist) (i : Nat)
    (h0 : localT.Holds (h.cell 0 i)) :
    ∀ n, HistWithLocalCopies.replicaSum localT h (n + 1) i
      = localT.wrap (∑ r in Finset.range (n + 1), h.cell r i) := by
  intro n
  unfold HistWithLocalCopies.replicaSum
  rw [Nat.add_sub_cancel]
  induction n with
  | zero => simpa using h0.symm
  | succ n ih =>
    rw [List.range'_1_concat, List.foldl_append, ih, Finset.sum_range_succ _ (n + 1)]
    simp only [List.foldl_cons, List.foldl_nil]
    rw [wrap_wrap_add, Nat.add_comm 1 n]

/-- The step of the loop in `finalize`, for the replica sums `v`. -/
theorem finalize_fold_cells (T : IntType) (item : NdItem) (v : Nat → Int) :
    ∀ (l : List Nat), l.Nodup → ∀ (g : GlobalHist) (j : Nat),
      (l.foldl (fun g i => if v i ≠ 0 then g.atomic_add T item i (v i) else g) g).cells j
        = if j ∈ l ∧ v j ≠ 0 then T.wrap (g.cells j + v j) else g.cells j := by
  intro l hl g j
  rw [foldl_proj GlobalHist.cells _
    (fun m i => store m i ((fun i c => if v i ≠ 0 then T.wrap (c + v i) else c) i (m i)))
    _ l g, foldl_store_apply (fun i c => if v i ≠ 0 then T.wrap (c + v i) else c) l hl]
  · by_cases h1 : j ∈ l <;> by_cases h2 : v j = 0 <;> simp [h1, h2]
  · intro s x
    by_cases hx : v x = 0
    · funext k
      by_cases hk : k = x <;> simp [hx, store, hk]
    · simp [hx, GlobalHist.atomic_add, atomic_add_cell, wrap_add_wrap]

theorem finalize_fold_trace (T : IntType) (item : NdItem) (v : Nat → Int) :
    ∀ (l : List Nat) (g : GlobalHist),
      (l.foldl (fun g i => if v i ≠ 0 then g.atomic_add T item i (v i) else g) g).trace
        = g.trace ++ l.filterMap
            (fun i => if v i ≠ 0 then some (AtomicAdd.mk item i (T.wrap (v i))) else none) := by
  intro l
  induction l with
  | nil => intro g; simp
  | cons a l ih =>
    intro g
    rw [List.foldl_cons, ih]
    by_cases ha : v a = 0
    · simp [ha]
    · simp [ha, GlobalHist.atomic_add]

theorem filter_cell_filterMap (T : IntType) (item : NdItem) (v : Nat → Int) (i : Nat) :
    ∀ (l : List Nat), l.Nodup →
      (l.filterMap
          (fun k => if v k ≠ 0 then some (AtomicAdd.mk item k (T.wrap (v k))) else none)).filter
        (fun a => decide (a.cell = i))
        = if i ∈ l ∧ v i ≠ 0 then [AtomicAdd.mk item i (T.wrap (v i))] else [] := by
  intro l
  induction l with
  | nil => intro _; simp
  | cons a l ih =>
    intro hnd
    rw [List.nodup_cons] at hnd
    by_cases ha : v a = 0
    · rw [List.filterMap_cons_none (by simp [ha]), ih hnd.2]
      by_cases hia : i = a
      · subst hia; simp [ha]
      · simp [hia]
    · rw [List.filterMap_cons_some (by simp [ha]; rfl), List.filter_cons, ih hnd.2]
      by_cases hia : a = i
      · subst hia; simp [ha, hnd.1]
      · simp [hia, Ne.symm hia]

theorem finalize_eq (T localT : IntType) (s : LocalCopies) (fuel gid lid gs : Nat)
    (hlid : lid < gs) (hbins : s.local_hist.range1 + gs < 2 ^ 32)
    (hcopies : s.local_hist.range0 < 2 ^ 32) (hfuel : s.local_hist.range1 + gs < fuel) :
    HistWithLocalCopies.finalize T localT fuel ⟨gid, lid, gs⟩ s
      = some (LocalCopies.mk s.local_hist
          ((stripe s.local_hist.range1 gs fuel lid).foldl
            (fun g i =>
              if HistWithLocalCopies.replicaSum localT s.local_hist s.local_hist.range0 i ≠ 0
              then g.atomic_add T ⟨gid, lid, gs⟩ i
                (HistWithLocalCopies.replicaSum localT s.local_hist s.local_hist.range0 i)
              else g) s.global_hist)) := by
  unfold HistWithLocalCopies.finalize
  simp only
  rw [toU32_of_lt (show lid < 2 ^ 32 by omega),
    toU32_of_lt (show s.local_hist.range1 < 2 ^ 32 by omega),
    toU32_of_lt (show gs < 2 ^ 32 by omega), toU32_of_lt hcopies,
    stripedFor_eq_foldl _ _ _ (by omega) hbins _ _ _ (by omega) (by omega)]
  rfl

theorem finalizeGroup_char (T localT : IntType) (s : LocalCopies) (fuel gid gs : Nat)
    (hgs : 1 ≤ gs) (hbins : s.local_hist.range1 + gs < 2 ^ 32)
    (hcopies : s.local_hist.range0 < 2 ^ 32) (hfuel : s.local_hist.range1 + gs < fuel) :
    ∃ s' new, HistWithLocalCopies.finalizeGroup T localT fuel gid gs s = some s' ∧
      s'.local_hist = s.local_hist ∧
      s'.global_hist.trace = s.global_hist.trace ++ new ∧
      (∀ i, new.filter (fun a => decide (a.cell = i))
        = if i < s.local_hist.range1 ∧
            HistWithLocalCopies.replicaSum localT s.local_hist s.local_hist.range0 i ≠ 0
          then [AtomicAdd.mk ⟨gid, i % gs, gs⟩ i (T.wrap
            (HistWithLocalCopies.replicaSum localT s.local_hist s.local_hist.range0 i))]
          else []) ∧
      (∀ i, s'.global_hist.cells i
        = if i < s.local_hist.range1 ∧
            HistWithLocalCopies.replicaSum localT s.local_hist s.local_hist.range0 i ≠ 0
          then T.wrap (s.global_hist.cells i
            + HistWithLocalCopies.replicaSum localT s.local_hist s.local_hist.range0 i)
          else s.global_hist.cells i) := by
  obtain ⟨s', hs', hl, new, ht, hf, hc⟩ := workGroupPhase_induct
    (HistWithLocalCopies.finalize T localT fuel) gid gs
    (fun k s' => s'.local_hist = s.local_hist ∧ ∃ new,
      s'.global_hist.trace = s.global_hist.trace ++ new ∧
      (∀ i, new.filter (fun a => decide (a.cell = i))
        = if i < s.local_hist.range1 ∧ i % gs < k ∧
            HistWithLocalCopies.replicaSum localT s.local_hist s.local_hist.range0 i ≠ 0
          then [AtomicAdd.mk ⟨gid, i % gs, gs⟩ i (T.wrap
            (HistWithLocalCopies.replicaSum localT s.local_hist s.local_hist.range0 i))]
          else []) ∧
      (∀ i, s'.global_hist.cells i
        = if i < s.local_hist.range1 ∧ i % gs < k ∧
            HistWithLocalCopies.replicaSum localT s.local_hist s.local_hist.range0 i ≠ 0
          then T.wrap (s.global_hist.cells i
            + HistWithLocalCopies.replicaSum localT s.local_hist s.local_hist.range0 i)
          else s.global_hist.cells i))
    s ⟨rfl, [], by simp, by simp, by simp⟩
    (by
      rintro lid s1 hlid ⟨hl, new, ht, hf, hc⟩
      refine ⟨_, finalize_eq T localT s1 fuel gid lid gs hlid (by rw [hl]; exact hbins)
        (by rw [hl]; exact hcopies) (by rw [hl]; exact hfuel), hl, ?_⟩
      simp only [hl]
      refine ⟨new ++ (stripe s.local_hist.range1 gs fuel lid).filterMap
        (fun i =>
          if HistWithLocalCopies.replicaSum localT s.local_hist s.local_hist.range0 i ≠ 0
          then some (AtomicAdd.mk ⟨gid, lid, gs⟩ i (T.wrap
            (HistWithLocalCopies.replicaSum localT s.local_hist s.local_hist.range0 i)))
          else none), ?_, ?_, ?_⟩
      · rw [finalize_fold_trace, ht, List.append_assoc]
      · intro i
        rw [List.filter_append, hf,
          filter_cell_filterMap T _ _ i _ (stripe_nodup _ _ (by omega) _ _),
          if_congr (and_congr_left' (mem_stripe_of_lid hlid (by omega) i)) rfl rfl]
        by_cases hi : i < s.local_hist.range1
        · rcases Nat.lt_trichotomy (i % gs) lid with h | h | h
          · simp [hi, h, Nat.ne_of_lt h, Nat.lt_succ_of_lt h]
          · by_cases hv : HistWithLocalCopies.replicaSum localT s.local_hist
                s.local_hist.range0 i = 0 <;> simp [hi, h, hv]
          · simp [hi, Nat.ne_of_gt h, Nat.not_lt.mpr (Nat.le_of_lt h),
              Nat.not_lt.mpr (Nat.succ_le_of_lt h)]
        · simp [hi]
      · intro i
        rw [finalize_fold_cells T _ _ _ (stripe_nodup _ _ (by omega) _ _), hc,
          if_congr (and_congr_left' (mem_stripe_of_lid hlid (by omega) i)) rfl rfl]
        by_cases hi : i < s.local_hist.range1
        · rcases Nat.lt_trichotomy (i % gs) lid with h | h | h
          · simp [hi, h, Nat.ne_of_lt h, Nat.lt_succ_of_lt h]
          · by_cases hv : HistWithLocalCopies.replicaSum localT s.local_hist
                s.local_hist.range0 i = 0 <;> simp [hi, h, hv]
          · simp [hi, Nat.ne_of_gt h, Nat.not_lt.mpr (Nat.le_of_lt h),
              Nat.not_lt.mpr (Nat.succ_le_of_lt h)]
        · simp [hi])
  refine ⟨s', new, hs', hl, ht, ?_, ?_⟩
  · intro i
    rw [hf]
    have : i % gs < gs := Nat.mod_lt _ (by omega)
    simp [this]
  · intro i
    rw [hc]
    have : i % gs < gs := Nat.mod_lt _ (by omega)
    simp [this]

theorem foldlM_some {σ ι : Type} (f : σ → ι → σ) :
    ∀ (l : List ι) (s : σ), l.foldlM (fun s x => some (f s x)) s = some (l.foldl f s) := by
  intro l
  induction l with
  | nil => intro s; rfl
  | cons a l ih => intro s; rw [List.foldlM_cons, List.foldl_cons]; exact ih _

theorem workGroupPhase_some {σ : Type} (f : NdItem → σ → σ) (gid gs : Nat) (s : σ) :
    workGroupPhase (fun item s => some (f item s)) gid gs s
      = some ((List.range gs).foldl (fun s lid => f ⟨gid, lid, gs⟩ s) s) :=
  foldlM_some (fun s lid => f ⟨gid, lid, gs⟩ s) _ s

theorem atomic_add_cell_acc (T : IntType) (m : Nat → Int) (i : Nat) (v : Int) (a : Nat) :
    T.wrap (atomic_add_cell T m i v a) = T.wrap (m a + if i = a then v else 0) ∧
      (T.Holds (m a) → T.Holds (atomic_add_cell T m i v a)) := by
  unfold atomic_add_cell
  by_cases h : a = i
  · subst h
    simp only [store_same, if_true, wrap_wrap, wrap_add_wrap, true_and]
    intro _
    exact holds_wrap T _
  · have h' : ¬ i = a := fun e => h e.symm
    simp [store_other _ _ h, h']

theorem foldl_adds (T : IntType) {σ ι : Type} (π : σ → Nat → Int) (step : σ → ι → σ)
    (c : ι → Nat → Int)
    (hstep : ∀ s x a, T.wrap (π (step s x) a) = T.wrap (π s a + c x a) ∧
      (T.Holds (π s a) → T.Holds (π (step s x) a))) :
    ∀ (l : List ι) (s : σ) (a : Nat),
      T.wrap (π (l.foldl step s) a) = T.wrap (π s a + (l.map fun x => c x a).sum) ∧
        (T.Holds (π s a) → T.Holds (π (l.foldl step s) a)) := by
  intro l
  induction l with
  | nil => intro s a; simp
  | cons x l ih =>
    intro s a
    obtain ⟨h1, h2⟩ := ih (step s x) a
    obtain ⟨h3, h4⟩ := hstep s x a
    refine ⟨?_, fun h => h2 (h4 h)⟩
    rw [List.foldl_cons, h1, List.map_cons, List.sum_cons, ← wrap_wrap_add, h3, wrap_wrap_add,
      add_assoc]

theorem wrap_sum_wrap (T : IntType) (f : Nat → Int) (n : Nat) :
    T.wrap (∑ r in Finset.range n, T.wrap (f r)) = T.wrap (∑ r in Finset.range n, f r) := by
  induction n with
  | zero => simp
  | succ n ih =>
    rw [Finset.sum_range_succ, Finset.sum_range_succ, wrap_add_wrap, ← wrap_wrap_add, ih,
      wrap_wrap_add]

theorem applyCalls_global (T : IntType) (calls : List AddCall) (g : GlobalHist) (a : Nat) :
    T.wrap ((applyCalls (HistGlobalMemory T) calls g).cells a)
        = T.wrap (g.cells a + callsTotal calls a) ∧
      (T.Holds (g.cells a) → T.Holds ((applyCalls (HistGlobalMemory T) calls g).cells a)) := by
  have hstep : ∀ (s : GlobalHist) (c : AddCall) (a : Nat),
      T.wrap (((HistGlobalMemory T).add c.item c.bin c.value s).cells a)
          = T.wrap (s.cells a + if toSizeT c.bin = a then c.value else 0) ∧
        (T.Holds (s.cells a) →
          T.Holds (((HistGlobalMemory T).add c.item c.bin c.value s).cells a)) := by
    intro s c a
    simp only [HistGlobalMemory, HistGlobalMemory.add, GlobalHist.atomic_add]
    exact atomic_add_cell_acc T s.cells (toSizeT c.bin) c.value a
  exact foldl_adds T GlobalHist.cells
    (fun s c => (HistGlobalMemory T).add c.item c.bin c.value s)
    (fun c a => if toSizeT c.bin = a then c.value else 0) hstep calls g a

theorem runCalls_global (T : IntType) (fuel gid gs : Nat) (calls : List AddCall)
    (g : GlobalHist) :
    runCalls (HistGlobalMemory T) fuel gid gs calls g
      = some (applyCalls (HistGlobalMemory T) calls g) := by
  unfold runCalls
  have h : ∀ s : GlobalHist, workGroupPhase (fun (_ : NdItem) (g : GlobalHist) => some g)
      gid gs s = some s := by
    intro s
    rw [workGroupPhase_some (fun _ s => s)]
    congr 1
    induction (List.range gs) with
    | nil => rfl
    | cons a l ih => simp [ih]
  show (workGroupPhase (fun _ g => some g) gid gs g).bind
      (fun s => workGroupPhase (fun _ g => some g) gid gs
        (applyCalls (HistGlobalMemory T) calls s)) = _
  rw [h, Option.some_bind, h]

theorem holds_eq_wrap {T : IntType} {x y c : Int} (h1 : T.wrap y = T.wrap (x + c))
    (h2 : T.Holds y) : y = T.wrap (x + c) := by
  rw [← h1]; exact h2.symm

/-! ## The replicas of one work-group -/

theorem init_eq (val : Int) (fuel gid lid gs : Nat) (s : LocalCopies) (hlid : lid < gs)
    (hsz : s.local_hist.size + gs < 2 ^ 32) (hfuel : s.local_hist.size + gs < fuel) :
    HistWithLocalCopies.init val fuel ⟨gid, lid, gs⟩ s
      = some (LocalCopies.mk
          (LocalHist.mk s.local_hist.range0 s.local_hist.range1 (fun j =>
            if j < s.local_hist.size ∧ j % gs = lid then val else s.local_hist.data j))
          s.global_hist) := by
  unfold HistWithLocalCopies.init
  simp only
  rw [toU32_of_lt (show lid < 2 ^ 32 by omega),
    toU32_of_lt (show s.local_hist.size < 2 ^ 32 by omega),
    toU32_of_lt (show gs < 2 ^ 32 by omega),
    stripedFor_eq_foldl _ _ _ (by omega) hsz _ _ _ (by omega) (by omega)]
  simp only [Option.map_some']
  congr 3
  funext j
  rw [foldl_store_apply (fun _ _ => val) _ (stripe_nodup _ _ (by omega) _ _)]
  exact if_congr (mem_stripe_of_lid hlid (by omega) j) rfl rfl

theorem initGroup_char (val : Int) (fuel gid gs : Nat) (s : LocalCopies) (hgs : 1 ≤ gs)
    (hsz : s.local_hist.size + gs < 2 ^ 32) (hfuel : s.local_hist.size + gs < fuel) :
    ∃ s', workGroupPhase (HistWithLocalCopies.init val fuel) gid gs s = some s' ∧
      s'.global_hist = s.global_hist ∧
      s'.local_hist.range0 = s.local_hist.range0 ∧
      s'.local_hist.range1 = s.local_hist.range1 ∧
      ∀ j, s'.local_hist.data j
        = if j < s.local_hist.size then val else s.local_hist.data j := by
  obtain ⟨s', h, hg, h0, h1, hd⟩ := workGroupPhase_induct
    (HistWithLocalCopies.init val fuel) gid gs
    (fun k s' => s'.global_hist = s.global_hist ∧
      s'.local_hist.range0 = s.local_hist.range0 ∧
      s'.local_hist.range1 = s.local_hist.range1 ∧
      ∀ j, s'.local_hist.data j
        = if j < s.local_hist.size ∧ j % gs < k then val else s.local_hist.data j)
    s ⟨rfl, rfl, rfl, fun j => by simp⟩
    (by
      rintro lid s1 hlid ⟨hg, h0, h1, hd⟩
      have hsize : s1.local_hist.size = s.local_hist.size := by
        unfold LocalHist.size; rw [h0, h1]
      refine ⟨_, init_eq val fuel gid lid gs s1 hlid (by rw [hsize]; exact hsz)
        (by rw [hsize]; exact hfuel), hg, h0, h1, ?_⟩
      intro j
      simp only [hsize, hd]
      by_cases hj : j < s.local_hist.size
      · rcases Nat.lt_trichotomy (j % gs) lid with h | h | h
        · simp [hj, h, Nat.ne_of_lt h, Nat.lt_succ_of_lt h]
        · simp [hj, h]
        · simp [hj, Nat.ne_of_gt h, Nat.not_lt.mpr (Nat.le_of_lt h),
            Nat.not_lt.mpr (Nat.succ_le_of_lt h)]
      · simp [hj])
  refine ⟨s', h, hg, h0, h1, ?_⟩
  intro j
  rw [hd]
  have : j % gs < gs := Nat.mod_lt _ (by omega)
  simp [this]

/-- Address of the replica cell that `add` updates. -/
theorem applyCalls_local (T localT : IntType) (calls : List AddCall) :
    ∀ (s : LocalCopies),
      applyCalls (HistWithLocalCopies T localT) calls s
        = LocalCopies.mk
            (LocalHist.mk s.local_hist.range0 s.local_hist.range1
              (calls.foldl (fun d c => atomic_add_cell localT d
                (toSizeT (HistWithLocalCopies.local_copy_id c.item s.local_hist.range0)
                  * s.local_hist.range1 + toSizeT c.bin) c.value) s.local_hist.data))
            s.global_hist := by
  unfold applyCalls
  induction calls with
  | nil => intro s; rfl
  | cons c l ih =>
    intro s
    rw [List.foldl_cons, ih]
    rfl

theorem local_copy_id_eq (item : NdItem) (copies : Nat) (hlid : item.local_linear_id < 2 ^ 31)
    (hc1 : 1 ≤ copies) (hc31 : copies < 2 ^ 31) :
    toSizeT (HistWithLocalCopies.local_copy_id item copies)
      = item.local_linear_id % copies := by
  unfold HistWithLocalCopies.local_copy_id
  simp only
  generalize item.local_linear_id = lid at hlid ⊢
  rw [toI32_of_lt (Int.natCast_nonneg lid) (by exact_mod_cast hlid),
    toI32_of_lt (Int.natCast_nonneg copies) (by exact_mod_cast hc31)]
  by_cases h1 : copies = 1
  · subst h1
    simp [toSizeT, Nat.mod_one]
  · rw [if_neg (by exact_mod_cast h1),
      Int.tmod_eq_emod (Int.natCast_nonneg lid) (Int.natCast_nonneg copies),
      ← Int.natCast_mod]
    apply toSizeT_natCast
    have : lid % copies < copies := Nat.mod_lt _ (by omega)
    omega

theorem flat_index_inj {bins r r' b b' : Nat} (hb : b < bins) (hb' : b' < bins)
    (h : r * bins + b = r' * bins + b') : r = r' ∧ b = b' := by
  have hpos : 0 < bins := by omega
  have h1 : (r * bins + b) / bins = r := by
    rw [Nat.mul_comm, Nat.mul_add_div hpos, Nat.div_eq_of_lt hb, Nat.add_zero]
  have h2 : (r' * bins + b') / bins = r' := by
    rw [Nat.mul_comm, Nat.mul_add_div hpos, Nat.div_eq_of_lt hb', Nat.add_zero]
  have h3 : (r * bins + b) % bins = b := by
    rw [Nat.mul_comm, Nat.mul_add_mod, Nat.mod_eq_of_lt hb]
  have h4 : (r' * bins + b') % bins = b' := by
    rw [Nat.mul_comm, Nat.mul_add_mod, Nat.mod_eq_of_lt hb']
  rw [h] at h1 h3
  exact ⟨h1.symm.trans h2, h3.symm.trans h4⟩

theorem flat_index_lt {copies bins r b : Nat} (hr : r < copies) (hb : b < bins) :
    r * bins + b < copies * bins := by
  have : (r + 1) * bins ≤ copies * bins := Nat.mul_le_mul_right _ hr
  rw [Nat.add_mul] at this
  omega

theorem sum_replica_indicator (copies bins rc b' i : Nat) (v : Int) (hrc : rc < copies)
    (hb' : b' < bins) (hi : i < bins) :
    (∑ r in Finset.range copies, if rc * bins + b' = r * bins + i then v else 0)
      = if b' = i then v else 0 := by
  by_cases hbi : b' = i
  · subst hbi
    rw [if_pos rfl]
    have : ∀ r, (rc * bins + b' = r * bins + b') ↔ rc = r := by
      intro r
      constructor
      · intro h; exact (flat_index_inj hb' hb' h).1
      · intro h; rw [h]
    simp only [this]
    rw [Finset.sum_ite_eq]
    simp [hrc]
  · rw [if_neg hbi]
    apply Finset.sum_eq_zero
    intro r _
    rw [if_neg]
    intro h
    exact hbi (flat_index_inj hb' hi h).2

theorem replica_totals (copies bins i : Nat) (hi : i < bins) (addr : AddCall → Nat)
    (rc : AddCall → Nat) :
    ∀ (calls : List AddCall),
      (∀ c ∈ calls, rc c < copies ∧ toSizeT c.bin < bins ∧
        addr c = rc c * bins + toSizeT c.bin) →
      (∑ r in Finset.range copies,
          (calls.map fun c => if addr c = r * bins + i then c.value else 0).sum)
        = callsTotal calls i := by
  intro calls
  unfold callsTotal
  induction calls with
  | nil => intro _; simp
  | cons c l ih =>
    intro h
    obtain ⟨h1, h2, h3⟩ := h c (List.mem_cons_self _ _)
    simp only [List.map_cons, List.sum_cons, Finset.sum_add_distrib]
    rw [ih (fun c hc => h c (List.mem_cons_of_mem _ hc)), h3,
      sum_replica_indicator copies bins (rc c) (toSizeT c.bin) i c.value h1 h2 hi]

theorem foldl_atomic_adds (T : IntType) (addr : AddCall → Nat) (calls : List AddCall)
    (d : Nat → Int) (a : Nat) :
    T.wrap ((calls.foldl (fun d c => atomic_add_cell T d (addr c) c.value) d) a)
        = T.wrap (d a + (calls.map fun c => if addr c = a then c.value else 0).sum) ∧
      (T.Holds (d a) →
        T.Holds ((calls.foldl (fun d c => atomic_add_cell T d (addr c) c.value) d) a)) := by
  have hstep : ∀ (d : Nat → Int) (c : AddCall) (a : Nat),
      T.wrap (atomic_add_cell T d (addr c) c.value a)
          = T.wrap (d a + if addr c = a then c.value else 0) ∧
        (T.Holds (d a) → T.Holds (atomic_add_cell T d (addr c) c.value a)) :=
    fun d c a => atomic_add_cell_acc T d (addr c) c.value a
  exact foldl_adds T (fun (d : Nat → Int) => d)
    (fun d c => atomic_add_cell T d (addr c) c.value)
    (fun c a => if addr c = a then c.value else 0) hstep calls d a

theorem local_cells_after_calls (localT : IntType) (copies bins : Nat) (calls : List AddCall)
    (d : Nat → Int) (addr rc : AddCall → Nat) (b : Nat) (hb : b < bins) (hc1 : 1 ≤ copies)
    (hzero : ∀ a, a < copies * bins → d a = 0)
    (hcalls : ∀ c ∈ calls, rc c < copies ∧ toSizeT c.bin < bins ∧
      addr c = rc c * bins + toSizeT c.bin) :
    localT.Holds ((LocalHist.mk copies bins
        (calls.foldl (fun d c => atomic_add_cell localT d (addr c) c.value) d)).cell 0 b) ∧
      localT.wrap (∑ r in Finset.range copies, (LocalHist.mk copies bins
        (calls.foldl (fun d c => atomic_add_cell localT d (addr c) c.value) d)).cell r b)
        = localT.wrap (callsTotal calls b) := by
  simp only [LocalHist.cell]
  have hcell : ∀ r, r < copies →
      (calls.foldl (fun d c => atomic_add_cell localT d (addr c) c.value) d) (r * bins + b)
        = localT.wrap ((calls.map fun c =>
            if addr c = r * bins + b then c.value else 0).sum) := by
    intro r hr
    obtain ⟨h1, h2⟩ := foldl_atomic_adds localT addr calls d (r * bins + b)
    have hz := hzero (r * bins + b) (flat_index_lt hr hb)
    rw [hz] at h1 h2
    exact holds_eq_wrap h1 (h2 (wrap_zero localT))
      |>.trans (by rw [zero_add])
  constructor
  · rw [hcell 0 (by omega)]
    exact holds_wrap _ _
  · rw [Finset.sum_congr rfl (fun r hr => hcell r (Finset.mem_range.mp hr)), wrap_sum_wrap,
      replica_totals copies bins b hb addr rc calls hcalls]

theorem runCalls_local (T localT : IntType) (fuel gid gs copies bins : Nat)
    (calls : List AddCall) (s : LocalCopies)
    (hr0 : s.local_hist.range0 = copies) (hr1 : s.local_hist.range1 = bins)
    (hgs : 1 ≤ gs) (hgs31 : gs ≤ 2 ^ 31) (hc1 : 1 ≤ copies) (hc31 : copies < 2 ^ 31)
    (hsz : copies * bins + gs < 2 ^ 32) (hfuel : copies * bins + gs < fuel)
    (hcalls : ∀ c ∈ calls, c.item.local_linear_id < gs ∧ toSizeT c.bin < bins) :
    ∃ s', runCalls (HistWithLocalCopies T localT) fuel gid gs calls s = some s' ∧
      s'.local_hist.range0 = copies ∧ s'.local_hist.range1 = bins ∧
      ∀ b, s'.global_hist.cells b
        = if b < bins ∧ localT.wrap (callsTotal calls b) ≠ 0
          then T.wrap (s.global_hist.cells b + localT.wrap (callsTotal calls b))
          else s.global_hist.cells b := by
  have hsize : s.local_hist.size = copies * bins := by
    unfold LocalHist.size; rw [hr0, hr1]
  have hbins : bins ≤ copies * bins := Nat.le_mul_of_pos_left _ (by omega)
  obtain ⟨s1, h1, hg1, h10, h11, hd1⟩ := initGroup_char 0 fuel gid gs s hgs
    (by rw [hsize]; exact hsz) (by rw [hsize]; exact hfuel)
  rw [hsize] at hd1
  rw [hr0] at h10
  rw [hr1] at h11
  have h2 := applyCalls_local T localT calls s1
  rw [h10, h11, hg1] at h2
  obtain ⟨s3, new, h3, hl3, _, _, hc3⟩ := finalizeGroup_char T localT
    (applyCalls (HistWithLocalCopies T localT) calls s1) fuel gid gs hgs
    (by rw [h2]; dsimp only; omega) (by rw [h2]; dsimp only; omega)
    (by rw [h2]; dsimp only; omega)
  refine ⟨s3, ?_, ?_, ?_, ?_⟩
  · show (workGroupPhase (HistWithLocalCopies.init 0 fuel) gid gs s).bind
        (fun s => workGroupPhase (HistWithLocalCopies.finalize T localT fuel) gid gs
          (applyCalls (HistWithLocalCopies T localT) calls s)) = some s3
    rw [h1, Option.some_bind]
    exact h3
  · rw [hl3, h2]
  · rw [hl3, h2]
  · intro b
    rw [hc3 b, h2]
    dsimp only
    by_cases hb : b < bins
    · obtain ⟨hh, ht⟩ := local_cells_after_calls localT copies bins calls s1.local_hist.data
        (fun c => toSizeT (HistWithLocalCopies.local_copy_id c.item copies) * bins
          + toSizeT c.bin)
        (fun c => c.item.local_linear_id % copies) b hb hc1
        (fun a ha => by rw [hd1, if_pos ha])
        (fun c hc => ⟨Nat.mod_lt _ (by omega), (hcalls c hc).2, by
          dsimp only
          rw [local_copy_id_eq c.item copies (by have := (hcalls c hc).1; omega) hc1 hc31]⟩)
      have hv := replicaSum_eq localT _ b hh (copies - 1)
      rw [Nat.sub_add_cancel hc1, ht] at hv
      rw [hv]
    · simp [hb]

/-! ## Replicas against direct accumulation -/

theorem toSizeT_of_nonneg {x : Int} (h0 : 0 ≤ x) (h : x < 2 ^ 64) : (toSizeT x : Int) = x := by
  unfold toSizeT
  rw [Int.emod_eq_of_lt h0 h]
  exact Int.toNat_of_nonneg h0

theorem toSizeT_lt_of_bin {x : Int} {bins : Nat} (h0 : 0 ≤ x) (h : x < bins)
    (hbins : bins < 2 ^ 64) : toSizeT x < bins := by
  have := toSizeT_of_nonneg h0 (by have : (bins : Int) < 2 ^ 64 := by exact_mod_cast hbins
                                   omega)
  omega

theorem callsTotal_eq_zero (calls : List AddCall) (b : Nat)
    (h : ∀ c ∈ calls, toSizeT c.bin ≠ b) : callsTotal calls b = 0 := by
  unfold callsTotal
  induction calls with
  | nil => rfl
  | cons c l ih =>
    rw [List.map_cons, List.sum_cons, ih (fun c hc => h c (List.mem_cons_of_mem _ hc)),
      if_neg (h c (List.mem_cons_self _ _))]
    rfl

theorem wrap_narrow_add (T localT : IntType) (x t : Int)
    (hfit : localT = T ∨ localT.Holds t) : T.wrap (x + localT.wrap t) = T.wrap (x + t) := by
  rcases hfit with h | h
  · rw [h, wrap_add_wrap]
  · rw [h]

/-- C3, as stated, fails: two calls `add(0, 0, 2 ^ 31)` into a `uint64_t` histogram. The
32-bit replica wraps to `0` and `finalize` adds nothing, so the histogram keeps `0` in
bin `0`, while `HistGlobalMemory` leaves `2 ^ 32` there. -/
theorem local_copies_differ_from_global :
    (runCalls (HistWithLocalCopies uint64_t (HistLocalType uint64_t)) 3 0 1
        [⟨⟨0, 0, 1⟩, 0, 2 ^ 31⟩, ⟨⟨0, 0, 1⟩, 0, 2 ^ 31⟩]
        (HistWithLocalCopies.new ⟨fun _ => 0, []⟩ 1 1 (fun _ => 0))).map
        (fun s => s.global_hist.cells 0) = some 0 ∧
      (runCalls (HistGlobalMemory uint64_t) 3 0 1
        [⟨⟨0, 0, 1⟩, 0, 2 ^ 31⟩, ⟨⟨0, 0, 1⟩, 0, 2 ^ 31⟩] ⟨fun _ => 0, []⟩).map
        (fun g => g.cells 0) = some (2 ^ 32) := by
  decide

/-- C3, amended: for every integer histogram type `T` and replica type `localT`, every
`1 ≤ copies_count < 2 ^ 31`, every `1 ≤ group_size ≤ 2 ^ 31` with
`copies_count * bins_count + group_size` representable in 32 bits, and every sequence
of calls `add(local_id, bin, value)` with `local_id < group_size` and
`0 ≤ bin < bins_count` issued in one work-group: if `localT` is `T` itself, or the
values added to each bin total to a value representable in `localT`, then
`HistWithLocalCopies` taken through `init`, those calls and `finalize` ends with the
global histogram that `HistGlobalMemory` reaches through the same calls from the same
initial histogram. -/
theorem local_copies_refine_global (T localT : IntType) (fuel gid gs copies bins : Nat)
    (calls : List AddCall) (g0 : GlobalHist) (uninit : Nat → Int)
    (hgs : 1 ≤ gs) (hgs31 : gs ≤ 2 ^ 31) (hc1 : 1 ≤ copies) (hc31 : copies < 2 ^ 31)
    (hsz : copies * bins + gs < 2 ^ 32) (hfuel : copies * bins + gs < fuel)
    (hcalls : ∀ c ∈ calls, c.item.local_linear_id < gs ∧ 0 ≤ c.bin ∧ c.bin < bins)
    (hinit : ∀ b, T.Holds (g0.cells b))
    (hfit : localT = T ∨ ∀ b, b < bins → localT.Holds (callsTotal calls b)) :
    ∃ s' g', runCalls (HistWithLocalCopies T localT) fuel gid gs calls
          (HistWithLocalCopies.new g0 bins copies uninit) = some s' ∧
      runCalls (HistGlobalMemory T) fuel gid gs calls g0 = some g' ∧
      s'.global_hist.cells = g'.cells := by
  have hbins : bins ≤ copies * bins := Nat.le_mul_of_pos_left _ (by omega)
  have hlt : ∀ c ∈ calls, toSizeT c.bin < bins := fun c hc =>
    toSizeT_lt_of_bin (hcalls c hc).2.1 (hcalls c hc).2.2 (by omega)
  obtain ⟨s', h1, _, _, hcells⟩ := runCalls_local T localT fuel gid gs copies bins calls
    (HistWithLocalCopies.new g0 bins copies uninit) rfl rfl hgs hgs31 hc1 hc31 hsz hfuel
    (fun c hc => ⟨(hcalls c hc).1, hlt c hc⟩)
  refine ⟨s', _, h1, runCalls_global T fuel gid gs calls g0, ?_⟩
  funext b
  obtain ⟨h2, h3⟩ := applyCalls_global T calls g0 b
  rw [holds_eq_wrap h2 (h3 (hinit b)), hcells b]
  show (if b < bins ∧ localT.wrap (callsTotal calls b) ≠ 0
      then T.wrap (g0.cells b + localT.wrap (callsTotal calls b)) else g0.cells b) = _
  by_cases hb : b < bins
  · have hw := wrap_narrow_add T localT (g0.cells b) (callsTotal calls b)
      (hfit.imp id (fun h => h b hb))
    by_cases hz : localT.wrap (callsTotal calls b) = 0
    · rw [if_neg (by simp [hz]), ← hw, hz, add_zero]
      exact (hinit b).symm
    · rw [if_pos ⟨hb, hz⟩, hw]
  · rw [if_neg (by simp [hb]),
      callsTotal_eq_zero calls b (fun c hc => by have := hlt c hc; omega), add_zero]
    exact (hinit b).symm

/-- Witness of `local_copies_refine_global`: a `uint64_t` histogram of two bins, two
32-bit replicas, a work-group of two and three calls. -/
theorem local_copies_refine_global_witness :
    ∃ s' g', runCalls (HistWithLocalCopies uint64_t uint32_t) 8 0 2
          [⟨⟨0, 0, 2⟩, 0, 5⟩, ⟨⟨0, 1, 2⟩, 0, 7⟩, ⟨⟨0, 1, 2⟩, 1, 1⟩]
          (HistWithLocalCopies.new ⟨fun _ => 0, []⟩ 2 2 (fun _ => 9)) = some s' ∧
      runCalls (HistGlobalMemory uint64_t) 8 0 2
          [⟨⟨0, 0, 2⟩, 0, 5⟩, ⟨⟨0, 1, 2⟩, 0, 7⟩, ⟨⟨0, 1, 2⟩, 1, 1⟩] ⟨fun _ => 0, []⟩
        = some g' ∧
      s'.global_hist.cells = g'.cells :=
  local_copies_refine_global uint64_t uint32_t 8 0 2 2 2
    [⟨⟨0, 0, 2⟩, 0, 5⟩, ⟨⟨0, 1, 2⟩, 0, 7⟩, ⟨⟨0, 1, 2⟩, 1, 1⟩] ⟨fun _ => 0, []⟩ (fun _ => 9)
    (by decide) (by decide) (by decide) (by decide) (by decide) (by decide)
    (by decide) (fun _ => (by decide : uint64_t.Holds 0)) (Or.inr (by decide))

/-! ## From the calls of the kernel to the samples -/

theorem foldl_snoc (l : List Nat) :
    ∀ acc : List Nat, l.foldl (fun log j => log ++ [j]) acc = acc ++ l := by
  induction l with
  | nil => intro acc; simp
  | cons a l ih => intro acc; rw [List.foldl_cons, ih]; simp

theorem initWrites_eq (fuel gid lid gs : Nat) (s : LocalCopies) (hlid : lid < gs)
    (hsz : s.local_hist.size + gs < 2 ^ 32) (hfuel : s.local_hist.size + gs < fuel) :
    HistWithLocalCopies.initWrites fuel ⟨gid, lid, gs⟩ s
      = some (stripe s.local_hist.size gs fuel lid) := by
  unfold HistWithLocalCopies.initWrites
  simp only
  rw [toU32_of_lt (show lid < 2 ^ 32 by omega),
    toU32_of_lt (show s.local_hist.size < 2 ^ 32 by omega),
    toU32_of_lt (show gs < 2 ^ 32 by omega),
    stripedFor_eq_foldl _ _ _ (by omega) hsz _ _ _ (by omega) (by omega), foldl_snoc,
    List.nil_append]

theorem init_eq_stores (val : Int) (fuel gid lid gs : Nat) (s : LocalCopies) (hlid : lid < gs)
    (hsz : s.local_hist.size + gs < 2 ^ 32) (hfuel : s.local_hist.size + gs < fuel) :
    HistWithLocalCopies.init val fuel ⟨gid, lid, gs⟩ s
      = some (LocalCopies.mk
          (LocalHist.mk s.local_hist.range0 s.local_hist.range1
            ((stripe s.local_hist.size gs fuel lid).foldl (fun m i => store m i val)
              s.local_hist.data))
          s.global_hist) := by
  unfold HistWithLocalCopies.init
  simp only
  rw [toU32_of_lt (show lid < 2 ^ 32 by omega),
    toU32_of_lt (show s.local_hist.size < 2 ^ 32 by omega),
    toU32_of_lt (show gs < 2 ^ 32 by omega),
    stripedFor_eq_foldl _ _ _ (by omega) hsz _ _ _ (by omega) (by omega)]
  rfl

/-- C12: for every replica count, bin count and work-group size `≥ 1` with
`copies_count * bins_count + group_size` representable in 32 bits, and enough fuel for
the loops: `init` with the default value, run by every work-item of a work-group, ends
and leaves `0` in every cell of every replica, the local memory beyond the replicas and
the global histogram as they were; the loop of each work-item ends, the stores it makes
are those of its record, and every flat index below `copies_count * bins_count` is in
the record of the work-item `index mod group_size` exactly once and in no other
record. -/
theorem init_zero_fills (T localT : IntType) (fuel gid gs : Nat) (s : LocalCopies)
    (hgs : 1 ≤ gs) (hsz : s.local_hist.range0 * s.local_hist.range1 + gs < 2 ^ 32)
    (hfuel : s.local_hist.range0 * s.local_hist.range1 + gs < fuel) :
    (∃ s', workGroupPhase ((HistWithLocalCopies T localT).init fuel) gid gs s = some s' ∧
        s'.local_hist.range0 = s.local_hist.range0 ∧
        s'.local_hist.range1 = s.local_hist.range1 ∧
        (∀ r b, r < s.local_hist.range0 → b < s.local_hist.range1 →
          s'.local_hist.cell r b = 0) ∧
        (∀ j, s.local_hist.range0 * s.local_hist.range1 ≤ j →
          s'.local_hist.data j = s.local_hist.data j) ∧
        s'.global_hist = s.global_hist) ∧
      ∀ lid, lid < gs → ∀ s1 : LocalCopies,
        s1.local_hist.range0 = s.local_hist.range0 →
        s1.local_hist.range1 = s.local_hist.range1 →
        ∃ l, HistWithLocalCopies.initWrites fuel ⟨gid, lid, gs⟩ s1 = some l ∧
          (HistWithLocalCopies T localT).init fuel ⟨gid, lid, gs⟩ s1
            = some (LocalCopies.mk
                (LocalHist.mk s1.local_hist.range0 s1.local_hist.range1
                  (l.foldl (fun m i => store m i 0) s1.local_hist.data))
                s1.global_hist) ∧
          ∀ j, l.count j
            = if j < s.local_hist.range0 * s.local_hist.range1 ∧ j % gs = lid then 1 else 0 := by
  constructor
  · obtain ⟨s', h, hg, h0, h1, hd⟩ := initGroup_char 0 fuel gid gs s hgs hsz hfuel
    refine ⟨s', h, h0, h1, ?_, ?_, hg⟩
    · intro r b hr hb
      unfold LocalHist.cell
      rw [hd, h1]
      exact if_pos (flat_index_lt hr hb)
    · intro j hj
      rw [hd, if_neg (by unfold LocalHist.size; omega)]
  · intro lid hlid s1 hr0 hr1
    have hsize : s1.local_hist.size = s.local_hist.range0 * s.local_hist.range1 := by
      unfold LocalHist.size; rw [hr0, hr1]
    refine ⟨stripe s1.local_hist.size gs fuel lid,
      initWrites_eq fuel gid lid gs s1 hlid (by rw [hsize]; exact hsz)
        (by rw [hsize]; exact hfuel),
      init_eq_stores 0 fuel gid lid gs s1 hlid (by rw [hsize]; exact hsz)
        (by rw [hsize]; exact hfuel), ?_⟩
    intro j
    rw [List.count_eq_of_nodup (stripe_nodup _ _ (by omega) _ _)]
    exact if_congr (by rw [mem_stripe_of_lid hlid (by omega) j, hsize]) rfl rfl

/-- Witness of `init_zero_fills`: two replicas of three bins holding `7` in every cell, a
work-group of two. -/
theorem init_zero_fills_witness :
    (∃ s', workGroupPhase ((HistWithLocalCopies uint64_t uint32_t).init 9) 0 2
          ⟨⟨2, 3, fun _ => 7⟩, ⟨fun _ => 0, []⟩⟩ = some s' ∧
        s'.local_hist.range0 = 2 ∧
        s'.local_hist.range1 = 3 ∧
        (∀ r b, r < 2 → b < 3 → s'.local_hist.cell r b = 0) ∧
        (∀ j, 2 * 3 ≤ j → s'.local_hist.data j = (fun _ => (7 : Int)) j) ∧
        s'.global_hist = ⟨fun _ => 0, []⟩) ∧
      ∀ lid, lid < 2 → ∀ s1 : LocalCopies,
        s1.local_hist.range0 = 2 →
        s1.local_hist.range1 = 3 →
        ∃ l, HistWithLocalCopies.initWrites 9 ⟨0, lid, 2⟩ s1 = some l ∧
          (HistWithLocalCopies uint64_t uint32_t).init 9 ⟨0, lid, 2⟩ s1
            = some (LocalCopies.mk
                (LocalHist.mk s1.local_hist.range0 s1.local_hist.range1
                  (l.foldl (fun m i => store m i 0) s1.local_hist.data))
                s1.global_hist) ∧
          ∀ j, l.count j = if j < 2 * 3 ∧ j % 2 = lid then 1 else 0 :=
  init_zero_fills uint64_t uint32_t 9 0 2 ⟨⟨2, 3, fun _ => 7⟩, ⟨fun _ => 0, []⟩⟩
    (by decide) (by decide) (by decide)

end Histogram
